import Mathlib

/-!
Shallow embedding of `lookup_benchmark.cc` from the cuckoo-index repository:
the workload evaluator in `main`, the lookup samplers `BM_PositiveDistinctLookup`
and `BM_NegativeLookup`, and the `ci::Bitmap64` operations they use.

Modelling conventions:
* C++ `long` values are modelled as `Int` (no query in the claims depends on
  64-bit wraparound of the accumulators or of parsed values); `size_t`
  arithmetic that can wrap (the `distinct_values.size() - 1` bound) is
  modelled explicitly modulo `2^64`.
* `ci::Bitmap64` (external to this file, used through `Bitmap64(num_stripes,
  false)`, `Set(i, true)`, `TrueBitIndices()`, `GetOnesCount()`) is modelled
  as a `List Bool` of fixed length.
* The index structure is external (`index->GetQualifyingStripes(value,
  num_stripes)` returns a `Bitmap64` of `num_stripes` bits); it is a
  parameter `idx : Int → Nat → List Bool` of the evaluator.
* Wall-clock durations measured by `std::chrono` are oracles: each processed
  query line carries its measured duration `dur` as a parameter.
* A read of an uninitialized `long` (possible for `endv` when parsing a
  malformed `range:` line) is modelled by an oracle parameter `uninit`.
* The floating-point division in the report lines is modelled over `ℚ`
  (exact division of the integer accumulators).
-/

namespace LookupBenchmark

/-! ### Bitmap64 model (`ci::Bitmap64`) -/

/-- `ci::Bitmap64(num_stripes, false)`: a bitmap of `n` slots all set to `fill`. -/
def mkBitmap (n : Nat) (fill : Bool) : List Bool :=
  List.replicate n fill

/-- Read slot `i` of a bitmap (false out of bounds, only used in specs). -/
def bmGet (b : List Bool) (i : Nat) : Bool :=
  b.getD i false

/-- `Bitmap64::Set(i, v)`: mutate slot `i` (callers keep `i` in bounds). -/
def bmSet (b : List Bool) (i : Nat) (v : Bool) : List Bool :=
  b.set i v

/-- `Bitmap64::TrueBitIndices()`: ascending list of indices of true slots. -/
def TrueBitIndices (b : List Bool) : List Nat :=
  (List.range b.length).filter (fun i => bmGet b i)

/-- `Bitmap64::GetOnesCount()`: population count. -/
def GetOnesCount (b : List Bool) : Nat :=
  b.count true

/-- `for(i = 0; i < tempres.size(); i++) totalres.Set(tempres[i], true);`
unioning a list of true indices into an accumulator bitmap. -/
def setAll (b : List Bool) (idxs : List Nat) : List Bool :=
  idxs.foldl (fun acc i => bmSet acc i true) b

/-! ### istringstream integer parsing (`iss >> startv >> comma >> endv`)

C++11 `num_get`: leading whitespace is skipped, an optional sign is read,
then digits; if no digits follow, extraction fails and the target is set
to `0`. Extractions on an already-failed stream do not write at all. -/

/-- Whitespace as classified by `std::isspace` in the default locale. -/
def isSpaceCh (c : Char) : Bool :=
  c == ' ' || c == '\t' || c == '\n' || c == '\x0b' || c == '\x0c' || c == '\r'

/-- Numeric value of a digit string (most significant first). -/
def digitsToInt (ds : List Char) : Int :=
  ds.foldl (fun a c => 10 * a + ((c.toNat : Int) - 48)) 0

/-- Optional leading sign: consumed `-`, consumed `+`, or nothing. -/
def splitSign (s : List Char) : Bool × List Char :=
  match s with
  | [] => (false, [])
  | a :: rest =>
    if a = '-' then (true, rest)
    else if a = '+' then (false, rest)
    else (false, a :: rest)

/-- One `iss >> (long)` extraction: result value, remaining characters,
success flag. On failure the value is 0 (C++11 `num_get` behaviour). -/
def parseLong (s : List Char) : Int × List Char × Bool :=
  let s1 := s.dropWhile isSpaceCh
  let p := splitSign s1
  let ds := p.2.takeWhile Char.isDigit
  let rest := p.2.dropWhile Char.isDigit
  if ds = [] then (0, s1, false)
  else ((if p.1 then -(digitsToInt ds) else digitsToInt ds), rest, true)

/-- `iss >> startv >> comma >> endv` on the text after `range:`.
If the first extraction fails the stream is failed: `startv` was set to 0 and
`endv` is never written (it stays uninitialized, modelled by `uninit`); the
same happens to `endv` when the stream is exhausted before the `comma`
extraction. The `comma` extraction itself (`char`) takes any single
non-whitespace character. -/
def parseRangeBody (s : List Char) (uninit : Int) : Int × Int :=
  let r1 := parseLong s
  if r1.2.2 then
    match r1.2.1.dropWhile isSpaceCh with
    | [] => (r1.1, uninit)
    | _ :: r2 =>
      let r3 := parseLong r2
      (r1.1, r3.1)
  else (r1.1, uninit)

/-- `iss >> startv; endv = startv;` on the text after `point:`. -/
def parsePointBody (s : List Char) : Int × Int :=
  let r := parseLong s
  (r.1, r.1)

/-! ### Line classification

`line.find("selectivity") != npos` is tested first, then
`line.find("range:") == 0`, then `line.find("point:") == 0`. -/

/-- `p` occurs at the start of the second list. -/
def hasPrefixCh : List Char → List Char → Bool
  | [], _ => true
  | _ :: _, [] => false
  | p :: ps, c :: cs => p == c && hasPrefixCh ps cs

/-- `hay.find(needle) != npos`: `needle` occurs somewhere in `hay`. -/
def hasSubstr (needle : List Char) : List Char → Bool
  | [] => needle.isEmpty
  | c :: cs => hasPrefixCh needle (c :: cs) || hasSubstr needle cs

/-- The characters of `"selectivity"`. -/
def selChars : List Char :=
  "selectivity".toList

/-- The characters of `"range:"`. -/
def rangeChars : List Char :=
  "range:".toList

/-- The characters of `"point:"`. -/
def pointChars : List Char :=
  "point:".toList

/-- How the `while (std::getline(...))` body dispatches on a line. A query
line carries `line.substr(6)`. -/
inductive LineClass where
  | header : LineClass
  | rangeQuery : List Char → LineClass
  | pointQuery : List Char → LineClass
  | ignored : LineClass
deriving DecidableEq

/-- The `if`/`else if` chain at the top of the evaluator loop. -/
def classifyLine (line : List Char) : LineClass :=
  if hasSubstr selChars line then LineClass.header
  else if hasPrefixCh rangeChars line then LineClass.rangeQuery (line.drop 6)
  else if hasPrefixCh pointChars line then LineClass.pointQuery (line.drop 6)
  else LineClass.ignored

/-! ### The evaluator state machine -/

/-- The accumulators `long blkcount, timecount, searchtime`. -/
structure EvalState where
  blkcount : Int
  timecount : Int
  searchtime : Int
deriving DecidableEq

/-- `long blkcount=0, timecount=0, searchtime = 0;` -/
def initState : EvalState :=
  ⟨0, 0, 0⟩

/-- One output line of the evaluator: an `avg blk num is:` report line, an
`avg search time is:` report line, or an echoed header line. -/
inductive OutLine where
  | avgBlk : ℚ → OutLine
  | avgTime : ℚ → OutLine
  | echo : List Char → OutLine
deriving DecidableEq

/-- The guarded flush: the two report lines printed when `searchtime != 0`,
nothing otherwise. -/
def flushOut (st : EvalState) : List OutLine :=
  if st.searchtime ≠ 0 then
    [OutLine.avgBlk ((st.blkcount : ℚ) / (st.searchtime : ℚ)),
     OutLine.avgTime ((st.timecount : ℚ) / ((10 ^ 9 : ℚ) * (st.searchtime : ℚ)))]
  else []

/-- The accumulator reset `blkcount = 0, timecount=0, searchtime = 0;`,
performed only inside the `searchtime != 0` guard. -/
def flushState (st : EvalState) : EvalState :=
  if st.searchtime ≠ 0 then initState else st

/-- The list of values `startv, startv+1, ..., endv` the range loop
`for(long value = startv; value <= endv; value++)` visits. -/
def rangeValues (startv endv : Int) : List Int :=
  (List.range (endv + 1 - startv).toNat).map (fun k => startv + Int.ofNat k)

/-- The accumulator `totalres` after the range loop: starts as
`Bitmap64(num_stripes, false)`; each visited value `v` contributes
`index->GetQualifyingStripes(v, num_stripes).TrueBitIndices()`, all set
true. -/
def evalRange (idx : Int → Nat → List Bool) (num_stripes : Nat)
    (startv endv : Int) : List Bool :=
  (rangeValues startv endv).foldl
    (fun totalres v => setAll totalres (TrueBitIndices (idx v num_stripes)))
    (mkBitmap num_stripes false)

/-- `totalres` after only the first `k` values of the range have been
processed (for stating monotonicity of the population count). -/
def evalRangeSteps (idx : Int → Nat → List Bool) (num_stripes : Nat)
    (startv endv : Int) (k : Nat) : List Bool :=
  ((rangeValues startv endv).take k).foldl
    (fun totalres v => setAll totalres (TrueBitIndices (idx v num_stripes)))
    (mkBitmap num_stripes false)

/-- Processing one query with bounds `[startv, endv]`: `searchtime += 1`,
evaluate the range, `blkcount += totalres.GetOnesCount()`,
`timecount += searchduration.count()` (`dur` is the measured duration). -/
def processQuery (idx : Int → Nat → List Bool) (num_stripes : Nat) (dur : Int)
    (st : EvalState) (startv endv : Int) : EvalState :=
  { blkcount := st.blkcount + (GetOnesCount (evalRange idx num_stripes startv endv) : Int),
    timecount := st.timecount + dur,
    searchtime := st.searchtime + 1 }

/-- One iteration of the `while (std::getline(file, line))` loop: the
resulting state and the lines printed during the iteration. -/
def stepLine (idx : Int → Nat → List Bool) (num_stripes : Nat)
    (dur uninit : Int) (st : EvalState) (line : List Char) :
    EvalState × List OutLine :=
  match classifyLine line with
  | LineClass.header => (flushState st, flushOut st ++ [OutLine.echo line])
  | LineClass.rangeQuery rest =>
    let p := parseRangeBody rest uninit
    (processQuery idx num_stripes dur st p.1 p.2, [])
  | LineClass.pointQuery rest =>
    let p := parsePointBody rest
    (processQuery idx num_stripes dur st p.1 p.2, [])
  | LineClass.ignored => (st, [])

/-- The whole `while` loop over a list of lines, each line paired with its
duration oracle and its uninitialized-memory oracle. -/
def runLines (idx : Int → Nat → List Bool) (num_stripes : Nat) :
    List (List Char × Int × Int) → EvalState → EvalState × List OutLine
  | [], st => (st, [])
  | (line, dur, uninit) :: rest, st =>
    let r1 := stepLine idx num_stripes dur uninit st line
    let r2 := runLines idx num_stripes rest r1.1
    (r2.1, r1.2 ++ r2.2)

/-- The evaluator from start to stream exhaustion, including the final
guarded flush after the loop. -/
def runEvaluator (idx : Int → Nat → List Bool) (num_stripes : Nat)
    (lines : List (List Char × Int × Int)) : List OutLine :=
  let r := runLines idx num_stripes lines initState
  r.2 ++ flushOut r.1

/-! ### Column model and the lookup samplers -/

/-- Modelled from the spec: `ci::Column` (declared in `cuckoo_utils.h`, not
part of this file's source) is "an ordered sequence of integer values (one
per row), with a reserved sentinel value denoting null". The sentinel
`ci::Column::kIntNullSentinel` is kept abstract as a parameter `sentinel`
where it matters. -/
structure Column where
  values : List Int
deriving DecidableEq

/-- Modelled from the spec: `Column::Contains(value)`, the membership
predicate of the column. -/
def Column.Contains (c : Column) (v : Int) : Bool :=
  c.values.contains v

/-- Modelled from the spec: `Column::distinct_values()`, the "derived set of
distinct values" of the column (the benchmark itself removes the null
sentinel afterwards, so the model keeps possible sentinels here). -/
def Column.distinct_values (c : Column) : List Int :=
  c.values.dedup

/-- `constexpr size_t kLookupBatchSize = 1'000'000;` -/
def kLookupBatchSize : Nat := 1000000

/-- `2^64`, the modulus of `size_t` arithmetic. -/
def UINT64_MOD : Nat := 2 ^ 64

/-- `size_t` subtraction `a - b` (wrapping), for `b ≤ 2^64`. -/
def sizeSub (a b : Nat) : Nat :=
  (a + UINT64_MOD - b) % UINT64_MOD

/-- The distinct-value pool of `BM_PositiveDistinctLookup` after
`distinct_values.erase(std::remove(..., kIntNullSentinel), ...)`: all
occurrences of the sentinel removed. -/
def positiveDistinctPool (sentinel : Int) (column : Column) : List Int :=
  (column.distinct_values).filter (fun v => v ≠ sentinel)

/-- The upper bound of `uniform_int_distribution<size_t>(0,
distinct_values.size() - 1)`: `size_t` subtraction wraps when the pool is
empty. -/
def distinctOffsetBound (pool : List Int) : Nat :=
  sizeSub pool.length 1

/-- One draw from `uniform_int_distribution<size_t>(0, bound)`, modelled as
reducing a raw generator output into the inclusive range `[0, bound]`. -/
def drawOffset (bound raw : Nat) : Nat :=
  raw % (bound + 1)

/-- The batch built by `BM_PositiveDistinctLookup`:
`values.push_back(distinct_values[distinct_values_offset_d(gen)])` for each
raw generator output (out-of-bounds reads, which the C++ code would make on
an empty pool, default to 0 in the model). -/
def positiveBatch (sentinel : Int) (column : Column) (raws : List Nat) : List Int :=
  let pool := positiveDistinctPool sentinel column
  raws.map (fun r => pool.getD (drawOffset (distinctOffsetBound pool) r) 0)

/-- The rejection loop of `BM_NegativeLookup`:
`while (column.Contains(value)) value = value_d(gen);` over a stream of raw
draws; returns the accepted value and the unconsumed draws, or `none` if the
stream runs out (the C++ loop would keep spinning). -/
def drawUntilAbsent (column : Column) : List Int → Option (Int × List Int)
  | [] => none
  | v :: rest =>
    if column.Contains v then drawUntilAbsent column rest else some (v, rest)

/-- The batch built by `BM_NegativeLookup`: `n` accepted values, each
produced by the rejection loop on the remaining stream of draws. -/
def negativeBatch (column : Column) : Nat → List Int → Option (List Int)
  | 0, _ => some []
  | Nat.succ n, draws =>
    match drawUntilAbsent column draws with
    | none => none
    | some (v, rest) => (negativeBatch column n rest).map (fun b => v :: b)

/-! ### Concrete index structures for witnesses (test doubles for the
external `IndexStructure` capability) -/

/-- A test index that reports every stripe as qualifying. -/
def idxAllTrue : Int → Nat → List Bool :=
  fun _ n => List.replicate n true

/-- A test index that reports no stripe as qualifying. -/
def idxAllFalse : Int → Nat → List Bool :=
  fun _ n => List.replicate n false

/-- A test index mapping value `v` to stripe `v % n` (when `0 ≤ v`). -/
def idxMod : Int → Nat → List Bool :=
  fun v n => (List.range n).map (fun i => decide (v % (n : Int) = Int.ofNat i))

/-! ## Helper lemmas -/

theorem length_setAll (l : List Nat) (b : List Bool) :
    (setAll b l).length = b.length := by
  induction l generalizing b with
  | nil => rfl
  | cons j js ih => simp [setAll, bmSet] at *; rw [ih]; simp

theorem bmGet_set_true_iff (b : List Bool) (i j : Nat) :
    bmGet (bmSet b j true) i = true ↔ bmGet b i = true ∨ (i = j ∧ j < b.length) := by
  induction b generalizing i j with
  | nil => simp [bmGet, bmSet]
  | cons a as ih =>
    cases j with
    | zero =>
      cases i with
      | zero => simp [bmGet, bmSet]
      | succ i' => simp [bmGet, bmSet]
    | succ j' =>
      cases i with
      | zero => simp [bmGet, bmSet]
      | succ i' =>
        have h := ih i' j'
        simp only [bmGet, bmSet, List.set, List.getD_cons_succ, List.length_cons] at h ⊢
        rw [h]
        constructor
        · rintro (hl | ⟨he, hlt⟩)
          · exact Or.inl hl
          · exact Or.inr ⟨by omega, by omega⟩
        · rintro (hl | ⟨he, hlt⟩)
          · exact Or.inl hl
          · exact Or.inr ⟨by omega, by omega⟩
theorem bmGet_setAll_iff (l : List Nat) (b : List Bool) (i : Nat) :
    bmGet (setAll b l) i = true ↔ bmGet b i = true ∨ (i ∈ l ∧ i < b.length) := by
  induction l generalizing b with
  | nil => simp [setAll]
  | cons j js ih =>
    have step : setAll b (j :: js) = setAll (bmSet b j true) js := rfl
    rw [step, ih]
    rw [bmGet_set_true_iff]
    have hlen : (bmSet b j true).length = b.length := by simp [bmSet]
    rw [hlen]
    constructor
    · rintro ((hl | ⟨he, hlt⟩) | ⟨hm, hlt⟩)
      · exact Or.inl hl
      · exact Or.inr ⟨by simp [he], by omega⟩
      · exact Or.inr ⟨by simp [hm], hlt⟩
    · rintro (hl | ⟨hm, hlt⟩)
      · exact Or.inl (Or.inl hl)
      · rcases List.mem_cons.mp hm with he | hm'
        · exact Or.inl (Or.inr ⟨he, by omega⟩)
        · exact Or.inr ⟨hm', hlt⟩

theorem count_true_set_le (b : List Bool) (j : Nat) :
    b.count true ≤ (bmSet b j true).count true := by
  induction b generalizing j with
  | nil => simp [bmSet]
  | cons a as ih =>
    cases j with
    | zero =>
      simp only [bmSet, List.set, List.count_cons]
      cases a <;> simp
    | succ j' =>
      simp only [bmSet, List.set, List.count_cons]
      have := ih j'
      simp only [bmSet] at this
      omega

theorem count_true_setAll_le (l : List Nat) (b : List Bool) :
    b.count true ≤ (setAll b l).count true := by
  induction l generalizing b with
  | nil => simp [setAll]
  | cons j js ih =>
    have step : setAll b (j :: js) = setAll (bmSet b j true) js := rfl
    rw [step]
    exact le_trans (count_true_set_le b j) (ih (bmSet b j true))

theorem mem_TrueBitIndices (b : List Bool) (i : Nat) :
    i ∈ TrueBitIndices b ↔ i < b.length ∧ bmGet b i = true := by
  simp [TrueBitIndices, List.mem_filter, List.mem_range]

theorem bmGet_mkBitmap_false (n i : Nat) : bmGet (mkBitmap n false) i = false := by
  simp only [bmGet, mkBitmap]
  rcases lt_or_le i n with h | h
  · rw [List.getD_eq_getElem _ _ (by simpa using h)]
    simp
  · rw [List.getD_eq_default _ _ (by simpa using h)]

theorem mem_rangeValues (startv endv v : Int) :
    v ∈ rangeValues startv endv ↔ startv ≤ v ∧ v ≤ endv := by
  simp only [rangeValues, List.mem_map, List.mem_range, Int.ofNat_eq_coe]
  constructor
  · rintro ⟨k, hk, rfl⟩
    omega
  · rintro ⟨h1, h2⟩
    exact ⟨(v - startv).toNat, by omega, by omega⟩

theorem nodup_rangeValues (startv endv : Int) : (rangeValues startv endv).Nodup := by
  unfold rangeValues
  refine List.Nodup.map ?_ (List.nodup_range _)
  intro a b h
  simp only [Int.ofNat_eq_coe] at h
  omega
theorem length_evalFold (idx : Int → Nat → List Bool) (n : Nat) (vs : List Int)
    (b : List Bool) :
    (vs.foldl (fun acc v => setAll acc (TrueBitIndices (idx v n))) b).length = b.length := by
  induction vs generalizing b with
  | nil => rfl
  | cons v vs ih => rw [List.foldl_cons, ih, length_setAll]

theorem bmGet_evalFold_iff (idx : Int → Nat → List Bool) (n : Nat) (vs : List Int)
    (b : List Bool) (hb : b.length = n) (hlen : ∀ v, (idx v n).length = n) (i : Nat) :
    bmGet (vs.foldl (fun acc v => setAll acc (TrueBitIndices (idx v n))) b) i = true
      ↔ bmGet b i = true ∨ ∃ v ∈ vs, i ∈ TrueBitIndices (idx v n) := by
  induction vs generalizing b with
  | nil => simp
  | cons v vs ih =>
    rw [List.foldl_cons, ih _ (by rw [length_setAll]; exact hb), bmGet_setAll_iff]
    constructor
    · rintro ((hl | ⟨hm, _⟩) | ⟨w, hw, hmem⟩)
      · exact Or.inl hl
      · exact Or.inr ⟨v, List.mem_cons_self _ _, hm⟩
      · exact Or.inr ⟨w, List.mem_cons_of_mem _ hw, hmem⟩
    · rintro (hl | ⟨w, hw, hmem⟩)
      · exact Or.inl (Or.inl hl)
      · rcases List.mem_cons.mp hw with rfl | hw'
        · refine Or.inl (Or.inr ⟨hmem, ?_⟩)
          have h := (mem_TrueBitIndices _ _).mp hmem
          rw [hlen] at h
          omega
        · exact Or.inr ⟨w, hw', hmem⟩

theorem count_rangeValues (startv endv v : Int) :
    (rangeValues startv endv).count v = if startv ≤ v ∧ v ≤ endv then 1 else 0 := by
  by_cases h : startv ≤ v ∧ v ≤ endv
  · rw [if_pos h]
    exact List.count_eq_one_of_mem (nodup_rangeValues startv endv)
      ((mem_rangeValues startv endv v).mpr h)
  · rw [if_neg h]
    exact List.count_eq_zero_of_not_mem
      (fun hm => h ((mem_rangeValues startv endv v).mp hm))

theorem dropWhile_append_of_ne_nil {p : Char → Bool} (l r : List Char)
    (h : l.dropWhile p ≠ []) :
    (l ++ r).dropWhile p = l.dropWhile p ++ r := by
  induction l with
  | nil => simp at h
  | cons a as ih =>
    by_cases hp : p a = true
    · rw [List.dropWhile_cons, if_pos hp] at h
      rw [List.cons_append, List.dropWhile_cons, List.dropWhile_cons, if_pos hp, if_pos hp]
      exact ih h
    · rw [List.cons_append, List.dropWhile_cons, List.dropWhile_cons, if_neg hp, if_neg hp]
      simp

theorem takeWhile_dropWhile_append {p : Char → Bool} (l : List Char) (c : Char)
    (t : List Char) (hall : l.dropWhile p = []) (hc : p c = false) :
    (l ++ c :: t).takeWhile p = l ∧ (l ++ c :: t).dropWhile p = c :: t := by
  induction l with
  | nil => simp [List.takeWhile, List.dropWhile, hc]
  | cons a as ih =>
    rw [List.dropWhile_cons] at hall
    have hpa : p a = true := by
      by_contra hpa
      rw [if_neg hpa] at hall
      exact List.cons_ne_nil _ _ hall
    rw [if_pos (by simp [hpa])] at hall
    obtain ⟨ht, hd⟩ := ih hall
    constructor
    · rw [List.cons_append, List.takeWhile_cons, if_pos (by simp [hpa]), ht]
    · rw [List.cons_append, List.dropWhile_cons, if_pos (by simp [hpa]), hd]

theorem splitSign_append (s r : List Char) (h : s ≠ []) :
    splitSign (s ++ r) = ((splitSign s).1, (splitSign s).2 ++ r) := by
  cases s with
  | nil => exact absurd rfl h
  | cons a as =>
    rw [List.cons_append]
    by_cases h1 : a = '-'
    · simp [splitSign, h1]
    · by_cases h2 : a = '+'
      · simp [splitSign, h1, h2]
      · simp [splitSign, h1, h2]

theorem parseLong_append (s : List Char) (v : Int) (c : Char) (t : List Char)
    (h : parseLong s = (v, [], true)) (hcd : c.isDigit = false) :
    parseLong (s ++ c :: t) = (v, c :: t, true) := by
  simp only [parseLong] at h ⊢
  split at h
  · exact absurd (congrArg (fun q : Int × List Char × Bool => q.2.2) h) (by simp)
  · rename_i hds
    have hv := congrArg (fun q : Int × List Char × Bool => q.1) h
    have hrest := congrArg (fun q : Int × List Char × Bool => q.2.1) h
    simp only at hv hrest
    have hs1 : s.dropWhile isSpaceCh ≠ [] := by
      intro hnil
      rw [hnil] at hds
      exact hds (by simp [splitSign])
    have hdw : (s ++ c :: t).dropWhile isSpaceCh = s.dropWhile isSpaceCh ++ c :: t :=
      dropWhile_append_of_ne_nil s (c :: t) hs1
    rw [hdw, splitSign_append _ _ hs1]
    obtain ⟨htw, hdw2⟩ :=
      takeWhile_dropWhile_append (p := Char.isDigit)
        ((splitSign (s.dropWhile isSpaceCh)).2) c t hrest hcd
    have hts : (splitSign (s.dropWhile isSpaceCh)).2.takeWhile Char.isDigit
        = (splitSign (s.dropWhile isSpaceCh)).2 := by
      have hsplit := List.takeWhile_append_dropWhile (p := Char.isDigit)
        (l := (splitSign (s.dropWhile isSpaceCh)).2)
      rw [hrest, List.append_nil] at hsplit
      exact hsplit
    have hne : (splitSign (s.dropWhile isSpaceCh)).2 ≠ [] := by
      intro hnil
      exact hds (by rw [hnil]; simp)
    rw [htw, hdw2, if_neg hne, ← hv, hts]

theorem parseLong_fail (s : List Char) (h : (parseLong s).2.2 = false) :
    (parseLong s).1 = 0 := by
  simp only [parseLong] at h ⊢
  split at h
  · rename_i hds
    rw [if_pos hds]
  · simp at h

theorem GetOnesCount_mkBitmap_false (n : Nat) : GetOnesCount (mkBitmap n false) = 0 := by
  induction n with
  | zero => rfl
  | succ m ih =>
    simp only [GetOnesCount, mkBitmap, List.replicate, List.count_cons] at ih ⊢
    simp [ih]

/-! ## The claims -/

/-- C2: For every range query record with inclusive bounds `[S, E]`, the
evaluator calls `GetQualifyingStripes` once per integer value `v` in
`[S, E]` (the list of visited values contains each such value exactly once
and nothing else), the accumulator bitmap's set of true indices after
processing the whole range equals the union of the true indices of all
per-value lookup results, and the accumulator's population count is
monotonically non-decreasing as each successive value's result is unioned
in. The index is assumed to return bitmaps of `num_stripes` bits, as the
`GetQualifyingStripes(value, num_stripes)` interface specifies. -/
theorem range_query_union_correct (idx : Int → Nat → List Bool) (n : Nat)
    (S E : Int) (hlen : ∀ v, (idx v n).length = n) :
    (∀ v : Int, (rangeValues S E).count v = if S ≤ v ∧ v ≤ E then 1 else 0)
    ∧ (∀ i : Nat, i ∈ TrueBitIndices (evalRange idx n S E)
        ↔ ∃ v : Int, S ≤ v ∧ v ≤ E ∧ i ∈ TrueBitIndices (idx v n))
    ∧ (∀ k : Nat, GetOnesCount (evalRangeSteps idx n S E k)
        ≤ GetOnesCount (evalRangeSteps idx n S E (k + 1))) := by
  refine ⟨fun v => count_rangeValues S E v, fun i => ?_, fun k => ?_⟩
  · unfold evalRange
    rw [mem_TrueBitIndices, bmGet_evalFold_iff idx n _ _ (by simp [mkBitmap]) hlen i]
    rw [bmGet_mkBitmap_false]
    constructor
    · rintro ⟨_, hfold⟩
      rcases hfold with hfalse | ⟨v, hv, hmem⟩
      · exact absurd hfalse (by simp)
      · rcases (mem_rangeValues S E v).mp hv with ⟨h1, h2⟩
        exact ⟨v, h1, h2, hmem⟩
    · rintro ⟨v, h1, h2, hmem⟩
      have hi : i < n := by
        have h := (mem_TrueBitIndices _ _).mp hmem
        rw [hlen] at h
        exact h.1
      refine ⟨?_, Or.inr ⟨v, (mem_rangeValues S E v).mpr ⟨h1, h2⟩, hmem⟩⟩
      rw [length_evalFold]
      simpa [mkBitmap] using hi
  · unfold evalRangeSteps
    rw [List.take_succ, List.foldl_append]
    cases (rangeValues S E)[k]? with
    | none => exact le_refl _
    | some v =>
      simp only [Option.toList, List.foldl_cons, List.foldl_nil]
      exact count_true_setAll_le _ _

/-- C2 witness: instantiated with the modulus test index on 3 stripes and
range `[1, 4]`. -/
theorem range_query_union_correct_witness :
    (∀ v : Int, (idxMod v 3).length = 3)
    ∧ ((∀ v : Int, (rangeValues 1 4).count v = if 1 ≤ v ∧ v ≤ 4 then 1 else 0)
      ∧ (∀ i : Nat, i ∈ TrueBitIndices (evalRange idxMod 3 1 4)
          ↔ ∃ v : Int, 1 ≤ v ∧ v ≤ 4 ∧ i ∈ TrueBitIndices (idxMod v 3))
      ∧ (∀ k : Nat, GetOnesCount (evalRangeSteps idxMod 3 1 4 k)
          ≤ GetOnesCount (evalRangeSteps idxMod 3 1 4 (k + 1)))) :=
  ⟨fun v => by simp [idxMod], range_query_union_correct idxMod 3 1 4 (fun v => by simp [idxMod])⟩
/-- C1: For every flushed group (a group state whose query counter
`searchtime` is nonzero, the guard under which the evaluator reports), the
reported average block count is `blkcount / searchtime` and the reported
average search time in seconds is `timecount / (1e9 * searchtime)`; hence
average block count times query count equals the accumulated block-count
total, exactly over rational arithmetic. -/
theorem flush_report_averages (st : EvalState) (h : st.searchtime ≠ 0) :
    flushOut st
      = [OutLine.avgBlk ((st.blkcount : ℚ) / (st.searchtime : ℚ)),
         OutLine.avgTime ((st.timecount : ℚ) / ((10 ^ 9 : ℚ) * (st.searchtime : ℚ)))]
    ∧ ((st.blkcount : ℚ) / (st.searchtime : ℚ)) * (st.searchtime : ℚ)
      = (st.blkcount : ℚ) := by
  constructor
  · rw [flushOut, if_pos h]
  · exact div_mul_cancel₀ _ (by exact_mod_cast h)

/-- C1 witness: a group with block-count total 7, time total 5000 ns and 2
queries. -/
theorem flush_report_averages_witness :
    ((⟨7, 5000, 2⟩ : EvalState).searchtime ≠ 0)
    ∧ (flushOut ⟨7, 5000, 2⟩
        = [OutLine.avgBlk ((7 : ℚ) / (2 : ℚ)),
           OutLine.avgTime ((5000 : ℚ) / ((10 ^ 9 : ℚ) * (2 : ℚ)))]
      ∧ ((7 : ℚ) / (2 : ℚ)) * (2 : ℚ) = (7 : ℚ)) :=
  ⟨by decide, flush_report_averages ⟨7, 5000, 2⟩ (by decide)⟩

/-- C4: Whenever the group's query counter is zero, flushing is a no-op:
a header line is processed with no report emitted (only the echoed header)
and the state unchanged, and the flush at stream exhaustion emits
nothing (so no division by zero is performed in either place). -/
theorem empty_group_flush_noop (idx : Int → Nat → List Bool) (n : Nat)
    (dur u : Int) (st : EvalState) (line : List Char)
    (h : st.searchtime = 0) (hh : classifyLine line = LineClass.header) :
    stepLine idx n dur u st line = (st, [OutLine.echo line])
    ∧ flushOut st = [] := by
  have hout : flushOut st = [] := by
    rw [flushOut, if_neg (by simp [h])]
  have hst : flushState st = st := by
    rw [flushState, if_neg (by simp [h])]
  constructor
  · simp only [stepLine, hh, hout, hst, List.nil_append]
  · exact hout

/-- C4 witness: the initial state (query counter zero) on a header line. -/
theorem empty_group_flush_noop_witness :
    (initState.searchtime = 0)
    ∧ (classifyLine "selectivity=0.1".toList = LineClass.header)
    ∧ (stepLine idxAllTrue 2 0 0 initState "selectivity=0.1".toList
        = (initState, [OutLine.echo "selectivity=0.1".toList])
      ∧ flushOut initState = []) :=
  ⟨by decide, by decide,
   empty_group_flush_noop idxAllTrue 2 0 0 initState _ (by decide) (by decide)⟩

/-- C9: Header detection has strict priority: a line containing the
substring `selectivity` anywhere is classified as a header and processed as
flush-then-echo, whatever its prefix; the `range:`/`point:` branches are
reachable only for lines not containing `selectivity`; and any other line
leaves the state unchanged and prints nothing. -/
theorem header_priority (idx : Int → Nat → List Bool) (n : Nat)
    (dur u : Int) (st : EvalState) (line : List Char) :
    (hasSubstr selChars line = true →
      classifyLine line = LineClass.header
      ∧ stepLine idx n dur u st line
          = (flushState st, flushOut st ++ [OutLine.echo line]))
    ∧ (∀ r, classifyLine line = LineClass.rangeQuery r →
        hasSubstr selChars line = false)
    ∧ (∀ r, classifyLine line = LineClass.pointQuery r →
        hasSubstr selChars line = false)
    ∧ (classifyLine line = LineClass.ignored →
        stepLine idx n dur u st line = (st, [])) := by
  refine ⟨fun h => ?_, fun r hr => ?_, fun r hr => ?_, fun h => ?_⟩
  · have hc : classifyLine line = LineClass.header := by
      rw [classifyLine, if_pos (by simp [h])]
    exact ⟨hc, by simp only [stepLine, hc]⟩
  · cases hs : hasSubstr selChars line with
    | false => rfl
    | true =>
      rw [classifyLine, if_pos (by simp [hs])] at hr
      exact absurd hr (by simp)
  · cases hs : hasSubstr selChars line with
    | false => rfl
    | true =>
      rw [classifyLine, if_pos (by simp [hs])] at hr
      exact absurd hr (by simp)
  · simp only [stepLine, h]

/-- C9 witness: the line `range: 1,2 selectivity` both starts with `range:`
and contains `selectivity`; it is classified as a header and flushed-echoed,
and a plain junk line is a no-op. -/
theorem header_priority_witness :
    (hasSubstr selChars "range: 1,2 selectivity".toList = true)
    ∧ (classifyLine "range: 1,2 selectivity".toList = LineClass.header
      ∧ stepLine idxAllTrue 2 0 0 ⟨3, 9, 1⟩ "range: 1,2 selectivity".toList
          = (flushState ⟨3, 9, 1⟩,
             flushOut ⟨3, 9, 1⟩ ++ [OutLine.echo "range: 1,2 selectivity".toList]))
    ∧ (classifyLine "start !".toList = LineClass.ignored)
    ∧ (stepLine idxAllTrue 2 0 0 ⟨3, 9, 1⟩ "start !".toList = (⟨3, 9, 1⟩, [])) :=
  ⟨by decide,
   (header_priority idxAllTrue 2 0 0 ⟨3, 9, 1⟩ _).1 (by decide),
   by decide,
   (header_priority idxAllTrue 2 0 0 ⟨3, 9, 1⟩ "start !".toList).2.2.2 (by decide)⟩
/-- C3: For every value with a decimal rendering `V` (any character string
that parses as exactly the integer `v`), evaluating the point-query record
`point:V` yields the same state change (accumulated bitmap, block-count
contribution, query-counter increment) and the same output as evaluating
the range-query record `range:V,V`. -/
theorem point_equals_singleton_range (idx : Int → Nat → List Bool) (n : Nat)
    (dur u : Int) (st : EvalState) (s : List Char) (v : Int)
    (hp : parseLong s = (v, [], true))
    (h1 : hasSubstr selChars (pointChars ++ s) = false)
    (h2 : hasSubstr selChars (rangeChars ++ (s ++ ',' :: s)) = false) :
    stepLine idx n dur u st (pointChars ++ s)
      = stepLine idx n dur u st (rangeChars ++ (s ++ ',' :: s)) := by
  have hr : hasPrefixCh rangeChars (pointChars ++ s) = false := rfl
  have hq : hasPrefixCh pointChars (pointChars ++ s) = true := rfl
  have hr2 : hasPrefixCh rangeChars (rangeChars ++ (s ++ ',' :: s)) = true := rfl
  have hcp : classifyLine (pointChars ++ s) = LineClass.pointQuery s := by
    rw [classifyLine, if_neg (by simp [h1]), if_neg (by simp [hr]),
      if_pos (by simp [hq])]
    rfl
  have hcr : classifyLine (rangeChars ++ (s ++ ',' :: s))
      = LineClass.rangeQuery (s ++ ',' :: s) := by
    rw [classifyLine, if_neg (by simp [h2]), if_pos (by simp [hr2])]
    rfl
  have hpl : parseLong (s ++ ',' :: s) = (v, ',' :: s, true) :=
    parseLong_append s v ',' s hp (by decide)
  have hdw : (',' :: s).dropWhile isSpaceCh = ',' :: s := by
    rw [List.dropWhile_cons, if_neg (by decide)]
  have hrb : parseRangeBody (s ++ ',' :: s) u = (v, v) := by
    simp only [parseRangeBody, hpl, hdw, hp]
    simp
  have hpb : parsePointBody s = (v, v) := by
    simp only [parsePointBody, hp]
  simp only [stepLine, hcp, hcr, hrb, hpb]

/-- C3 witness: the value 5 (`point:5` versus `range:5,5`). -/
theorem point_equals_singleton_range_witness :
    parseLong "5".toList = (5, [], true)
    ∧ hasSubstr selChars (pointChars ++ "5".toList) = false
    ∧ hasSubstr selChars (rangeChars ++ ("5".toList ++ ',' :: "5".toList)) = false
    ∧ stepLine idxAllTrue 3 0 0 initState (pointChars ++ "5".toList)
        = stepLine idxAllTrue 3 0 0 initState (rangeChars ++ ("5".toList ++ ',' :: "5".toList)) :=
  ⟨by decide, by decide, by decide,
   point_equals_singleton_range idxAllTrue 3 0 0 initState "5".toList 5
     (by decide) (by decide) (by decide)⟩

/-- C5 counterexample: the claim says a `point:` line whose remainder does
not parse as an integer is either skipped with the accumulators unchanged
or aborts; but the evaluator processes `point: abc` as the point query 0:
with a 2-stripe all-qualifying index it increments the query counter and
folds block count 2 into the accumulators, leaving the state changed. -/
theorem malformed_line_folded_counterexample :
    stepLine idxAllTrue 2 0 0 initState "point: abc".toList = (⟨2, 0, 1⟩, [])
    ∧ (⟨2, 0, 1⟩ : EvalState) ≠ initState :=
  ⟨by decide, by decide⟩

/-- C5 amended: a workload line classified as a `point:` query whose
remainder fails integer extraction is NOT skipped: the failed extraction
writes 0 (C++11 `num_get`), the evaluator runs the point query 0, the
group's query counter increments, and the query's block count and duration
are folded into the group's accumulators (hence into its reported
averages). -/
theorem malformed_point_line_processed (idx : Int → Nat → List Bool) (n : Nat)
    (dur u : Int) (st : EvalState) (line rest : List Char)
    (hc : classifyLine line = LineClass.pointQuery rest)
    (hfail : (parseLong rest).2.2 = false) :
    stepLine idx n dur u st line
      = (⟨st.blkcount + (GetOnesCount (evalRange idx n 0 0) : Int),
          st.timecount + dur, st.searchtime + 1⟩, []) := by
  have h0 := parseLong_fail rest hfail
  simp only [stepLine, hc, parsePointBody, processQuery, h0]

/-- C5 amended witness: the line `point: abc`. -/
theorem malformed_point_line_processed_witness :
    classifyLine "point: abc".toList = LineClass.pointQuery " abc".toList
    ∧ (parseLong " abc".toList).2.2 = false
    ∧ stepLine idxAllTrue 2 0 0 ⟨4, 50, 3⟩ "point: abc".toList
        = (⟨4 + (GetOnesCount (evalRange idxAllTrue 2 0 0) : Int), 50 + 0, 3 + 1⟩, []) :=
  ⟨by decide, by decide,
   malformed_point_line_processed idxAllTrue 2 0 0 ⟨4, 50, 3⟩ "point: abc".toList
     " abc".toList (by decide) (by decide)⟩

/-- C8 counterexample: the claim says an inverted-range record (start bound
strictly greater than end bound) lowers the group's reported average block
count; but on a group whose accumulated block count is 0 (here: one prior
query with 0 blocks), processing `range: 5,3` leaves the average at 0
rather than lowering it. -/
theorem inverted_range_counterexample :
    processQuery idxAllTrue 2 0 ⟨0, 0, 1⟩ 5 3 = ⟨0, 0, 2⟩
    ∧ ¬ (((0 : ℚ) / (2 : ℚ)) < ((0 : ℚ) / (1 : ℚ))) :=
  ⟨by decide, by norm_num⟩

/-- C8 amended: for every range query record whose parsed start bound is
strictly greater than its parsed end bound, the evaluator performs zero
index lookups (the visited-value list is empty), the per-query accumulator
stays all-false so the block-count total is unchanged, yet the group's
query counter still increments by one — so such a record never increases
the group's reported average block count, and strictly lowers it whenever
the accumulated block count is positive. -/
theorem inverted_range_no_lookup (idx : Int → Nat → List Bool) (n : Nat)
    (dur : Int) (st : EvalState) (startv endv : Int) (hlt : endv < startv)
    (hb : 0 ≤ st.blkcount) (hn : 0 < st.searchtime) :
    rangeValues startv endv = []
    ∧ evalRange idx n startv endv = mkBitmap n false
    ∧ processQuery idx n dur st startv endv
        = ⟨st.blkcount, st.timecount + dur, st.searchtime + 1⟩
    ∧ (st.blkcount : ℚ) / (((st.searchtime + 1 : Int) : ℚ))
        ≤ (st.blkcount : ℚ) / (st.searchtime : ℚ)
    ∧ (0 < st.blkcount →
        (st.blkcount : ℚ) / (((st.searchtime + 1 : Int) : ℚ))
          < (st.blkcount : ℚ) / (st.searchtime : ℚ)) := by
  have hr : rangeValues startv endv = [] := by
    have h0 : (endv + 1 - startv).toNat = 0 := by omega
    rw [rangeValues, h0]
    rfl
  have he : evalRange idx n startv endv = mkBitmap n false := by
    rw [evalRange, hr]
    rfl
  have hpq : processQuery idx n dur st startv endv
      = ⟨st.blkcount, st.timecount + dur, st.searchtime + 1⟩ := by
    rw [processQuery, he, GetOnesCount_mkBitmap_false]
    simp
  have hnq : (0 : ℚ) < (st.searchtime : ℚ) := by exact_mod_cast hn
  have hbq : (0 : ℚ) ≤ (st.blkcount : ℚ) := by exact_mod_cast hb
  have hlt1 : (st.searchtime : ℚ) < ((st.searchtime + 1 : Int) : ℚ) := by
    push_cast
    linarith
  refine ⟨hr, he, hpq, ?_, fun hbpos => ?_⟩
  · exact div_le_div_of_nonneg_left hbq hnq (le_of_lt hlt1)
  · exact div_lt_div_of_pos_left (by exact_mod_cast hbpos) hnq hlt1

/-- C8 amended witness: a group with 6 accumulated blocks over 2 queries,
processing `range: 5,3`. -/
theorem inverted_range_no_lookup_witness :
    ((3 : Int) < 5 ∧ (0 : Int) ≤ 6 ∧ (0 : Int) < 2)
    ∧ (rangeValues 5 3 = []
      ∧ evalRange idxAllTrue 4 5 3 = mkBitmap 4 false
      ∧ processQuery idxAllTrue 4 7 ⟨6, 10, 2⟩ 5 3 = ⟨6, 10 + 7, 2 + 1⟩
      ∧ ((6 : Int) : ℚ) / (((2 + 1 : Int) : ℚ)) ≤ ((6 : Int) : ℚ) / ((2 : Int) : ℚ)
      ∧ ((0 : Int) < 6 →
          ((6 : Int) : ℚ) / (((2 + 1 : Int) : ℚ)) < ((6 : Int) : ℚ) / ((2 : Int) : ℚ))) :=
  ⟨⟨by decide, by decide, by decide⟩,
   inverted_range_no_lookup idxAllTrue 4 7 ⟨6, 10, 2⟩ 5 3 (by decide) (by decide) (by decide)⟩
/-- C6 helper: the value accepted by the rejection loop fails the
membership predicate. -/
theorem drawUntilAbsent_not_contains (c : Column) (ds : List Int) (v : Int)
    (rest : List Int) (h : drawUntilAbsent c ds = some (v, rest)) :
    c.Contains v = false := by
  induction ds with
  | nil => simp [drawUntilAbsent] at h
  | cons a as ih =>
    rw [drawUntilAbsent] at h
    split at h
    · exact ih h
    · rename_i hc
      obtain ⟨rfl, rfl⟩ : a = v ∧ as = rest := by
        simpa using h
      simpa using hc

/-- C6: Every value placed in the negative-lookup batch satisfies
`Column.Contains(value) == false`: each draw is re-drawn until the
membership predicate reports absence, so a completed batch contains only
values absent from the column. -/
theorem negative_batch_sound (c : Column) (n : Nat) (ds : List Int)
    (batch : List Int) (h : negativeBatch c n ds = some batch) :
    ∀ v ∈ batch, c.Contains v = false := by
  induction n generalizing ds batch with
  | zero =>
    rw [negativeBatch] at h
    obtain rfl : ([] : List Int) = batch := by simpa using h
    intro v hv
    simp at hv
  | succ m ih =>
    rw [negativeBatch] at h
    cases hd : drawUntilAbsent c ds with
    | none => rw [hd] at h; simp at h
    | some p =>
      obtain ⟨v0, rest⟩ := p
      simp only [hd] at h
      cases hb : negativeBatch c m rest with
      | none => rw [hb] at h; simp at h
      | some b =>
        rw [hb] at h
        obtain rfl : v0 :: b = batch := by simpa using h
        intro v hv
        rcases List.mem_cons.mp hv with rfl | hv'
        · exact drawUntilAbsent_not_contains c ds v rest hd
        · exact ih rest b hb v hv'

/-- C6 witness: the column `[1, 2]` and the draw stream `[1, 5, 2, 7]`
yield the batch `[5, 7]`, whose members the column does not contain. -/
theorem negative_batch_sound_witness :
    negativeBatch ⟨[1, 2]⟩ 2 [1, 5, 2, 7] = some [5, 7]
    ∧ ∀ v ∈ [(5 : Int), 7], Column.Contains ⟨[1, 2]⟩ v = false :=
  ⟨by decide, negative_batch_sound ⟨[1, 2]⟩ 2 [1, 5, 2, 7] [5, 7] (by decide)⟩

/-- C7: For every column whose distinct-value list is non-empty after
removing the null sentinel (and of representable `size_t` length), every
value placed in the positive-distinct lookup batch is drawn from that
sentinel-free distinct-value pool; hence every batch value is contained in
the column and none equals the sentinel. -/
theorem positive_batch_sound (sentinel : Int) (col : Column) (raws : List Nat)
    (hne : positiveDistinctPool sentinel col ≠ [])
    (hsz : (positiveDistinctPool sentinel col).length ≤ UINT64_MOD) :
    ∀ v ∈ positiveBatch sentinel col raws,
      v ∈ positiveDistinctPool sentinel col
      ∧ col.Contains v = true ∧ v ≠ sentinel := by
  intro v hv
  simp only [positiveBatch, List.mem_map] at hv
  obtain ⟨r, _, rfl⟩ := hv
  have hlen : 0 < (positiveDistinctPool sentinel col).length :=
    List.length_pos.mpr hne
  have hbound : distinctOffsetBound (positiveDistinctPool sentinel col)
      = (positiveDistinctPool sentinel col).length - 1 := by
    have h64 : UINT64_MOD = 18446744073709551616 := by norm_num [UINT64_MOD]
    simp only [distinctOffsetBound, sizeSub, h64] at *
    omega
  have hidx : drawOffset (distinctOffsetBound (positiveDistinctPool sentinel col)) r
      < (positiveDistinctPool sentinel col).length := by
    rw [hbound, drawOffset]
    have hs : (positiveDistinctPool sentinel col).length - 1 + 1
        = (positiveDistinctPool sentinel col).length := by omega
    rw [hs]
    exact Nat.mod_lt _ hlen
  have hmem : (positiveDistinctPool sentinel col).getD
      (drawOffset (distinctOffsetBound (positiveDistinctPool sentinel col)) r) 0
      ∈ positiveDistinctPool sentinel col := by
    rw [List.getD_eq_getElem _ _ hidx]
    exact List.getElem_mem hidx
  have hfilter := List.mem_filter.mp hmem
  have hval : (positiveDistinctPool sentinel col).getD
      (drawOffset (distinctOffsetBound (positiveDistinctPool sentinel col)) r) 0
      ∈ col.values := List.mem_dedup.mp hfilter.1
  refine ⟨hmem, ?_, ?_⟩
  · simpa [Column.Contains] using hval
  · simpa using hfilter.2

/-- C7 witness: column `[3, 3, 7, 99]` with sentinel 99; the pool is
`[3, 7]` and a batch drawn with raws `[0, 1, 5]` stays inside it. -/
theorem positive_batch_sound_witness :
    (positiveDistinctPool 99 ⟨[3, 3, 7, 99]⟩ ≠ []
      ∧ (positiveDistinctPool 99 ⟨[3, 3, 7, 99]⟩).length ≤ UINT64_MOD)
    ∧ ∀ v ∈ positiveBatch 99 ⟨[3, 3, 7, 99]⟩ [0, 1, 5],
        v ∈ positiveDistinctPool 99 ⟨[3, 3, 7, 99]⟩
        ∧ Column.Contains ⟨[3, 3, 7, 99]⟩ v = true ∧ v ≠ 99 :=
  ⟨⟨by decide, by decide⟩,
   positive_batch_sound 99 ⟨[3, 3, 7, 99]⟩ [0, 1, 5] (by decide) (by decide)⟩

/-- C10: Under the precondition that the sentinel-free distinct-value pool
is non-empty, the sampling-offset upper bound `distinct_values.size() - 1`
equals `length - 1` and every drawn offset is in bounds; if the pool is
empty, the `size_t` subtraction wraps to `2^64 - 1` and every index is out
of bounds for the empty pool, so the non-empty precondition is exactly what
makes the reads safe. -/
theorem sampler_offset_bound_safe (sentinel : Int) (col : Column)
    (hsz : (positiveDistinctPool sentinel col).length ≤ UINT64_MOD) :
    (positiveDistinctPool sentinel col ≠ [] →
      distinctOffsetBound (positiveDistinctPool sentinel col)
          = (positiveDistinctPool sentinel col).length - 1
      ∧ ∀ raw : Nat,
          drawOffset (distinctOffsetBound (positiveDistinctPool sentinel col)) raw
            < (positiveDistinctPool sentinel col).length)
    ∧ (positiveDistinctPool sentinel col = [] →
      distinctOffsetBound (positiveDistinctPool sentinel col) = UINT64_MOD - 1
      ∧ ∀ i : Nat, ¬ i < (positiveDistinctPool sentinel col).length) := by
  have h64 : UINT64_MOD = 18446744073709551616 := by norm_num [UINT64_MOD]
  constructor
  · intro hne
    have hlen : 0 < (positiveDistinctPool sentinel col).length :=
      List.length_pos.mpr hne
    have hbound : distinctOffsetBound (positiveDistinctPool sentinel col)
        = (positiveDistinctPool sentinel col).length - 1 := by
      simp only [distinctOffsetBound, sizeSub, h64] at *
      omega
    refine ⟨hbound, fun raw => ?_⟩
    rw [hbound, drawOffset]
    have hs : (positiveDistinctPool sentinel col).length - 1 + 1
        = (positiveDistinctPool sentinel col).length := by omega
    rw [hs]
    exact Nat.mod_lt _ hlen
  · intro hnil
    rw [hnil]
    refine ⟨?_, fun i => by simp⟩
    simp only [distinctOffsetBound, sizeSub, h64, List.length_nil]

/-- C10 witness: a one-element pool (column `[3]`, sentinel 99) on the
non-empty side, and the all-sentinel column `[99]` (empty pool) on the
wraparound side. -/
theorem sampler_offset_bound_safe_witness :
    ((positiveDistinctPool 99 ⟨[3]⟩).length ≤ UINT64_MOD
      ∧ positiveDistinctPool 99 ⟨[3]⟩ ≠ [])
    ∧ (distinctOffsetBound (positiveDistinctPool 99 ⟨[3]⟩)
          = (positiveDistinctPool 99 ⟨[3]⟩).length - 1
      ∧ ∀ raw : Nat,
          drawOffset (distinctOffsetBound (positiveDistinctPool 99 ⟨[3]⟩)) raw
            < (positiveDistinctPool 99 ⟨[3]⟩).length)
    ∧ ((positiveDistinctPool 99 ⟨[99]⟩).length ≤ UINT64_MOD
      ∧ positiveDistinctPool 99 ⟨[99]⟩ = [])
    ∧ (distinctOffsetBound (positiveDistinctPool 99 ⟨[99]⟩) = UINT64_MOD - 1
      ∧ ∀ i : Nat, ¬ i < (positiveDistinctPool 99 ⟨[99]⟩).length) :=
  ⟨⟨by decide, by decide⟩,
   (sampler_offset_bound_safe 99 ⟨[3]⟩ (by decide)).1 (by decide),
   ⟨by decide, by decide⟩,
   (sampler_offset_bound_safe 99 ⟨[99]⟩ (by decide)).2 (by decide)⟩
end LookupBenchmark
